import Mathlib

/-!
Shallow embedding of the two-state Metropolis-Hastings demo notebook
(`w02-04a-mcmc-demo-discrete.ipynb`).

Conventions of the embedding:
* Python floats are modelled as exact rationals (`ℚ`).
* Hypothesis labels are the notebook's integer flags: `0` = fair, `1` = loaded.
* The process-wide random source (`np.random.uniform`) is modelled as an
  explicit stream `us : ℕ → ℚ` of draws together with the index `i` of the
  next unused draw; a step that calls `np.random.uniform` consumes one draw
  (the index advances by one), a step that does not leaves the index alone.
* A Python `ZeroDivisionError` (float division by zero) is modelled as `none`;
  it propagates, aborting the run, exactly as an uncaught exception would.
-/

namespace MCMCDemo

/-- `comb(5, 2)` from `scipy.special`. -/
def comb_5_2 : ℕ := Nat.choose 5 2

/-- Notebook cell: `prior_loaded = 0.6`. -/
def prior_loaded : ℚ := 6 / 10

/-- Notebook cell: `prior_fair = 1 - 0.6`. -/
def prior_fair : ℚ := 1 - 6 / 10

/-- Notebook cell: `likelihood_if_fair = comb(5, 2) * (0.5)**5`. -/
def likelihood_if_fair : ℚ := (comb_5_2 : ℚ) * (5 / 10) ^ 5

/-- Notebook cell: `likelihood_if_loaded = comb(5, 2) * (0.7)**2 * (0.3)**3`. -/
def likelihood_if_loaded : ℚ := (comb_5_2 : ℚ) * (7 / 10) ^ 2 * (3 / 10) ^ 3

/-- Notebook cell: `denom = (likelihood_if_fair * prior_fair) + (likelihood_if_loaded * prior_loaded)`. -/
def denom : ℚ := likelihood_if_fair * prior_fair + likelihood_if_loaded * prior_loaded

/-- Notebook cell: `posterior_fair = (likelihood_if_fair * prior_fair) / denom`. -/
def posterior_fair : ℚ := likelihood_if_fair * prior_fair / denom

/-- Notebook cell: `posterior_loaded = (likelihood_if_loaded * prior_loaded) / denom`. -/
def posterior_loaded : ℚ := likelihood_if_loaded * prior_loaded / denom

/-- The notebook's `get_alpha(state, likelihood_fair, prior_fair, likelihood_loaded,
prior_loaded)` with Lean's total division (division by zero yields `0`).
Docstring of the source: `0=fair, 1=loaded`. -/
def get_alpha (state : ℤ)
    (likelihood_fair prior_fair likelihood_loaded prior_loaded : ℚ) : ℚ :=
  if state = 1 then
    (likelihood_loaded * prior_loaded) / (likelihood_fair * prior_fair)
  else
    (likelihood_fair * prior_fair) / (likelihood_loaded * prior_loaded)

/-- `get_alpha` with Python's division semantics: dividing by a zero denominator
raises `ZeroDivisionError`, modelled as `none`; otherwise the same quotient as
`get_alpha`. -/
def get_alphaE (state : ℤ)
    (likelihood_fair prior_fair likelihood_loaded prior_loaded : ℚ) : Option ℚ :=
  if state = 1 then
    if likelihood_fair * prior_fair = 0 then none
    else some ((likelihood_loaded * prior_loaded) / (likelihood_fair * prior_fair))
  else
    if likelihood_loaded * prior_loaded = 0 then none
    else some ((likelihood_fair * prior_fair) / (likelihood_loaded * prior_loaded))

/-- One iteration of the notebook's sampling loop, given the current `state` and
the index `i` of the next unused uniform draw in the stream `us`. Returns
`(recorded sample, next state, next draw index)`, or `none` when `get_alpha`
raised. The body mirrors the source:
`proposed_state = 1 if state == 0 else 0`; `alpha = get_alpha(proposed_state, ...)`;
accept unconditionally when `alpha >= 1`, otherwise draw `u` and accept when
`u <= alpha`, else append the old `state` and keep it. -/
def mcmc_step (likelihood_fair prior_fair likelihood_loaded prior_loaded : ℚ)
    (us : ℕ → ℚ) (state : ℤ) (i : ℕ) : Option (ℤ × ℤ × ℕ) :=
  let proposed_state : ℤ := if state = 0 then 1 else 0
  (get_alphaE proposed_state likelihood_fair prior_fair likelihood_loaded prior_loaded).map
    fun alpha =>
      if 1 ≤ alpha then (proposed_state, proposed_state, i)
      else if us i ≤ alpha then (proposed_state, proposed_state, i + 1)
      else (state, state, i + 1)

/-- The notebook's sampling loop `for i in range(iterations)`, generalised over
the iteration count (the source fixes it to `int(1e4)`). Returns the recorded
trace `thetas`, the final `state`, and the index of the next unused draw, or
`none` when some iteration raised. -/
def mcmc_run (likelihood_fair prior_fair likelihood_loaded prior_loaded : ℚ)
    (us : ℕ → ℚ) (state : ℤ) (i : ℕ) : ℕ → Option (List ℤ × ℤ × ℕ)
  | 0 => some ([], state, i)
  | n + 1 =>
    (mcmc_step likelihood_fair prior_fair likelihood_loaded prior_loaded us state i).bind
      fun r =>
        (mcmc_run likelihood_fair prior_fair likelihood_loaded prior_loaded us r.2.1 r.2.2 n).map
          fun t => (r.1 :: t.1, t.2)

/-- Spec-side product `likelihood(s) * prior(s)` as a function of the hypothesis
label, for arbitrary parameter values (`1` = loaded, anything else = fair, the
convention of `get_alpha`). -/
def product_of (s : ℤ)
    (likelihood_fair prior_fair likelihood_loaded prior_loaded : ℚ) : ℚ :=
  if s = 1 then likelihood_loaded * prior_loaded else likelihood_fair * prior_fair

/-- The other hypothesis, i.e. the proposal of the loop:
`proposed_state = 1 if state == 0 else 0`. -/
def other (s : ℤ) : ℤ := if s = 0 then 1 else 0

/-- Spec-side acceptance ratio
`alpha = (likelihood(s') * prior(s')) / (likelihood(s) * prior(s))`
for current state `s` and proposal `s' = other s`. -/
def alpha_spec (s : ℤ)
    (likelihood_fair prior_fair likelihood_loaded prior_loaded : ℚ) : ℚ :=
  product_of (other s) likelihood_fair prior_fair likelihood_loaded prior_loaded /
    product_of s likelihood_fair prior_fair likelihood_loaded prior_loaded

/-- Analytic posterior of the fair hypothesis for arbitrary parameters,
generalising the notebook's `posterior_fair` cell. -/
def posterior_fair_of (likelihood_fair prior_fair likelihood_loaded prior_loaded : ℚ) : ℚ :=
  likelihood_fair * prior_fair /
    (likelihood_fair * prior_fair + likelihood_loaded * prior_loaded)

/-- Analytic posterior of the loaded hypothesis for arbitrary parameters,
generalising the notebook's `posterior_loaded` cell. -/
def posterior_loaded_of (likelihood_fair prior_fair likelihood_loaded prior_loaded : ℚ) : ℚ :=
  likelihood_loaded * prior_loaded /
    (likelihood_fair * prior_fair + likelihood_loaded * prior_loaded)

/-- Transition probability implied by the acceptance rule: a proposal to move to
`proposed` is taken with probability `min 1 alpha` where `alpha` is the
notebook's `get_alpha(proposed, ...)`. -/
def accept_prob (proposed : ℤ)
    (likelihood_fair prior_fair likelihood_loaded prior_loaded : ℚ) : ℚ :=
  min 1 (get_alpha proposed likelihood_fair prior_fair likelihood_loaded prior_loaded)

/-- Notebook cell: `P = np.array([[0.365, 0.635], [1, 0]])`. -/
def P_matrix : (ℚ × ℚ) × (ℚ × ℚ) := ((365 / 1000, 635 / 1000), (1, 0))

/-- Notebook cell: `pi_a = np.array([0.61161, 0.38839])`. -/
def pi_a : ℚ × ℚ := (61161 / 100000, 38839 / 100000)

/-- Row vector times 2x2 matrix, as `np.matmul(pi_a, P)` computes it. -/
def vecMul (v : ℚ × ℚ) (M : (ℚ × ℚ) × (ℚ × ℚ)) : ℚ × ℚ :=
  (v.1 * M.1.1 + v.2 * M.2.1, v.1 * M.1.2 + v.2 * M.2.2)

/-- Notebook cell: `pi_P = np.matmul(pi_a, P)`. -/
def pi_P : ℚ × ℚ := vecMul pi_a P_matrix

/-- C8: running the sampler with `iterations = 0` returns an empty sample trace,
without raising, for every choice of priors, likelihoods, draw stream and
initial state. -/
theorem zero_iterations_empty_trace
    (likelihood_fair prior_fair likelihood_loaded prior_loaded : ℚ)
    (us : ℕ → ℚ) (state : ℤ) (i : ℕ) :
    mcmc_run likelihood_fair prior_fair likelihood_loaded prior_loaded us state i 0 =
      some ([], state, i) :=
  rfl

/-- C9: multiplying the analytically computed posterior vector `pi_a` by the
chain's transition matrix `P` reproduces the same vector to within `1e-3` in
each component. -/
theorem stationarity_within_tolerance :
    |pi_P.1 - pi_a.1| ≤ 1 / 1000 ∧ |pi_P.2 - pi_a.2| ≤ 1 / 1000 := by
  refine ⟨abs_le.mpr ⟨?_, ?_⟩, abs_le.mpr ⟨?_, ?_⟩⟩ <;>
    norm_num [pi_P, pi_a, P_matrix, vecMul]

/-- C10: `get_alpha` is total over all integer state values: every state other
than `1` — including invalid third states such as `2` or `-1` — takes the
`else` branch and yields the fair-state ratio
`(likelihood_fair * prior_fair) / (likelihood_loaded * prior_loaded)`, with no
error as long as that denominator is non-zero. -/
theorem get_alpha_treats_nonloaded_as_fair (s : ℤ)
    (likelihood_fair prior_fair likelihood_loaded prior_loaded : ℚ)
    (hs : s ≠ 1) (hden : likelihood_loaded * prior_loaded ≠ 0) :
    get_alpha s likelihood_fair prior_fair likelihood_loaded prior_loaded =
        (likelihood_fair * prior_fair) / (likelihood_loaded * prior_loaded) ∧
      get_alphaE s likelihood_fair prior_fair likelihood_loaded prior_loaded =
        some ((likelihood_fair * prior_fair) / (likelihood_loaded * prior_loaded)) := by
  constructor
  · simp [get_alpha, hs]
  · simp [get_alphaE, hs, hden]

/-- Witness for C10 at the invalid state `2`. -/
theorem get_alpha_treats_nonloaded_as_fair_witness :
    get_alpha 2 3 1 1 1 = 3 ∧ get_alphaE 2 3 1 1 1 = some 3 := by
  have h := get_alpha_treats_nonloaded_as_fair 2 3 1 1 1 (by decide) (by norm_num)
  exact ⟨h.1.trans (by norm_num), h.2.trans (by norm_num)⟩

/-- Helper: `comb(5, 2)` evaluates to `10`. -/
theorem comb_5_2_eq : comb_5_2 = 10 := rfl

/-- Helper: a successful step records exactly the state it moves to, and that
state is either the proposal `other state` or the old `state`. -/
theorem mcmc_step_shape (likelihood_fair prior_fair likelihood_loaded prior_loaded : ℚ)
    (us : ℕ → ℚ) (state : ℤ) (i : ℕ) (r : ℤ × ℤ × ℕ)
    (h : mcmc_step likelihood_fair prior_fair likelihood_loaded prior_loaded us state i =
      some r) :
    r.1 = r.2.1 ∧ (r.2.1 = other state ∨ r.2.1 = state) := by
  cases hE : get_alphaE (if state = 0 then 1 else 0)
      likelihood_fair prior_fair likelihood_loaded prior_loaded with
  | none => simp [mcmc_step, hE] at h
  | some alpha =>
    simp only [mcmc_step, hE, Option.map_some'] at h
    rw [Option.some_inj] at h
    subst h
    split_ifs <;> simp_all [other]

/-- C1: for a current state `s` in `{fair, loaded}` and the notebook's fixed
priors and likelihoods, one iteration proposes the other hypothesis `s'`,
computes `alpha = (likelihood(s')*prior(s')) / (likelihood(s)*prior(s))`, moves
to `s'` unconditionally when `alpha ≥ 1` (consuming no draw), and otherwise
consumes the draw `u` and moves to `s'` exactly when `u ≤ alpha`, staying at
`s` otherwise. -/
theorem mcmc_step_follows_acceptance_rule (s : ℤ) (us : ℕ → ℚ) (i : ℕ)
    (hs : s = 0 ∨ s = 1) :
    mcmc_step likelihood_if_fair prior_fair likelihood_if_loaded prior_loaded us s i =
      some
        (if 1 ≤ alpha_spec s likelihood_if_fair prior_fair likelihood_if_loaded prior_loaded
         then (other s, other s, i)
         else if us i ≤
             alpha_spec s likelihood_if_fair prior_fair likelihood_if_loaded prior_loaded
         then (other s, other s, i + 1)
         else (s, s, i + 1)) := by
  rcases hs with rfl | rfl <;>
    norm_num [mcmc_step, get_alphaE, get_alpha, alpha_spec, product_of, other,
      likelihood_if_fair, likelihood_if_loaded, prior_fair, prior_loaded, comb_5_2_eq]

/-- Witness for C1: from the fair state with a draw of `0`, the step accepts the
loaded proposal and consumes one draw. -/
theorem mcmc_step_follows_acceptance_rule_witness :
    mcmc_step likelihood_if_fair prior_fair likelihood_if_loaded prior_loaded
      (fun _ => 0) 0 0 = some (1, 1, 1) :=
  (mcmc_step_follows_acceptance_rule 0 (fun _ => 0) 0 (Or.inl rfl)).trans (by
    norm_num [alpha_spec, product_of, other,
      likelihood_if_fair, likelihood_if_loaded, prior_fair, prior_loaded, comb_5_2_eq])

/-- C7: whenever `likelihood(s')*prior(s') ≥ likelihood(s)*prior(s) > 0`, so the
acceptance ratio is at least `1`, the step moves to `s'` unconditionally: the
result is the same for every draw stream and the draw index does not advance
(no draw is consumed). -/
theorem deterministic_acceptance
    (likelihood_fair prior_fair likelihood_loaded prior_loaded : ℚ)
    (us : ℕ → ℚ) (s : ℤ) (i : ℕ) (hs : s = 0 ∨ s = 1)
    (hpos : 0 < product_of s likelihood_fair prior_fair likelihood_loaded prior_loaded)
    (hge : product_of s likelihood_fair prior_fair likelihood_loaded prior_loaded ≤
      product_of (other s) likelihood_fair prior_fair likelihood_loaded prior_loaded) :
    mcmc_step likelihood_fair prior_fair likelihood_loaded prior_loaded us s i =
      some (other s, other s, i) := by
  rcases hs with rfl | rfl
  · simp only [product_of, other] at hpos hge
    norm_num at hpos hge
    have hα : (1 : ℚ) ≤ likelihood_loaded * prior_loaded / (likelihood_fair * prior_fair) :=
      (one_le_div hpos).mpr hge
    simp [mcmc_step, get_alphaE, other, hpos.ne', hα]
  · simp only [product_of, other] at hpos hge
    norm_num at hpos hge
    have hα : (1 : ℚ) ≤ likelihood_fair * prior_fair / (likelihood_loaded * prior_loaded) :=
      (one_le_div hpos).mpr hge
    simp [mcmc_step, get_alphaE, other, hpos.ne', hα]

/-- Witness for C7: with products `1` (fair) and `2` (loaded), the step from
fair accepts unconditionally with the draw index unchanged. -/
theorem deterministic_acceptance_witness :
    mcmc_step 1 1 2 1 (fun _ => 0) 0 0 = some (1, 1, 0) :=
  (deterministic_acceptance 1 1 2 1 (fun _ => 0) 0 0 (Or.inl rfl)
      (by norm_num [product_of]) (by norm_num [product_of, other])).trans
    (by norm_num [other])

/-- Helper: a successful run of `n` iterations appends, per iteration, exactly
one sample to the trace, the resulting trace elements all come from successful
steps, and the trace has length `n`. Stated as: the run from `(state, i)` is
`some (trace, final, j)` only when either `n = 0` with an empty trace, or the
first step succeeded and the rest is a successful run of `n - 1` iterations. -/
theorem mcmc_run_succ_iff (likelihood_fair prior_fair likelihood_loaded prior_loaded : ℚ)
    (us : ℕ → ℚ) (state : ℤ) (i n : ℕ) (t : List ℤ × ℤ × ℕ)
    (h : mcmc_run likelihood_fair prior_fair likelihood_loaded prior_loaded us state i
      (n + 1) = some t) :
    ∃ r rest,
      mcmc_step likelihood_fair prior_fair likelihood_loaded prior_loaded us state i =
          some r ∧
        mcmc_run likelihood_fair prior_fair likelihood_loaded prior_loaded us r.2.1 r.2.2 n =
          some rest ∧
        t = (r.1 :: rest.1, rest.2) := by
  rw [mcmc_run] at h
  cases hstep : mcmc_step likelihood_fair prior_fair likelihood_loaded prior_loaded us state i with
  | none => rw [hstep] at h; simp at h
  | some r =>
    rw [hstep] at h
    simp only [Option.some_bind] at h
    cases hrest : mcmc_run likelihood_fair prior_fair likelihood_loaded prior_loaded
        us r.2.1 r.2.2 n with
    | none => rw [hrest] at h; simp at h
    | some rest =>
      rw [hrest] at h
      simp only [Option.map_some', Option.some_inj] at h
      exact ⟨r, rest, rfl, hrest, h.symm⟩

/-- C4: starting from either hypothesis, whatever the parameters and random
draws, a successful run only ever occupies the two hypotheses `0` and `1`:
every recorded sample and the final state lie in `{0, 1}`; no third state is
reachable. -/
theorem chain_never_leaves_two_states
    (likelihood_fair prior_fair likelihood_loaded prior_loaded : ℚ)
    (us : ℕ → ℚ) (s : ℤ) (i n : ℕ) (t : List ℤ × ℤ × ℕ)
    (hs : s = 0 ∨ s = 1)
    (h : mcmc_run likelihood_fair prior_fair likelihood_loaded prior_loaded us s i n =
      some t) :
    (∀ x ∈ t.1, x = 0 ∨ x = 1) ∧ (t.2.1 = 0 ∨ t.2.1 = 1) := by
  induction n generalizing s i t with
  | zero =>
    rw [mcmc_run, Option.some_inj] at h
    subst h
    simpa using hs
  | succ n ih =>
    obtain ⟨r, rest, hstep, hrest, rfl⟩ :=
      mcmc_run_succ_iff likelihood_fair prior_fair likelihood_loaded prior_loaded
        us s i n t h
    obtain ⟨hrec, hmove⟩ :=
      mcmc_step_shape likelihood_fair prior_fair likelihood_loaded prior_loaded
        us s i r hstep
    have hnext : r.2.1 = 0 ∨ r.2.1 = 1 := by
      rcases hs with rfl | rfl <;> rcases hmove with hm | hm <;>
        rw [hm] <;> simp [other]
    obtain ⟨htrace, hfinal⟩ := ih r.2.1 r.2.2 rest hnext hrest
    refine ⟨?_, hfinal⟩
    intro x hx
    rcases List.mem_cons.mp hx with rfl | hx
    · rw [hrec]; exact hnext
    · exact htrace x hx

/-- Witness for C4: a two-iteration run from the fair state stays in `{0, 1}`. -/
theorem chain_never_leaves_two_states_witness :
    (∀ x ∈ (([1, 0], 0, 0) : List ℤ × ℤ × ℕ).1, x = 0 ∨ x = 1) ∧
      ((([1, 0], 0, 0) : List ℤ × ℤ × ℕ).2.1 = 0 ∨
        (([1, 0], 0, 0) : List ℤ × ℤ × ℕ).2.1 = 1) :=
  chain_never_leaves_two_states 1 1 1 1 (fun _ => 0) 0 0 2 ([1, 0], 0, 0)
    (Or.inl rfl) (by norm_num [mcmc_run, mcmc_step, get_alphaE])

/-- C5: every successful step records exactly the state the chain moves to (the
recorded sample is the current state entering the next iteration), and a
successful run of `n` iterations produces a trace of length exactly `n`. -/
theorem trace_records_resulting_state_and_has_full_length :
    (∀ (likelihood_fair prior_fair likelihood_loaded prior_loaded : ℚ)
        (us : ℕ → ℚ) (s : ℤ) (i : ℕ) (r : ℤ × ℤ × ℕ),
        mcmc_step likelihood_fair prior_fair likelihood_loaded prior_loaded us s i =
            some r →
          r.1 = r.2.1) ∧
    (∀ (likelihood_fair prior_fair likelihood_loaded prior_loaded : ℚ)
        (us : ℕ → ℚ) (s : ℤ) (i n : ℕ) (t : List ℤ × ℤ × ℕ),
        mcmc_run likelihood_fair prior_fair likelihood_loaded prior_loaded us s i n =
            some t →
          t.1.length = n) := by
  constructor
  · intro likelihood_fair prior_fair likelihood_loaded prior_loaded us s i r h
    exact (mcmc_step_shape likelihood_fair prior_fair likelihood_loaded prior_loaded
      us s i r h).1
  · intro likelihood_fair prior_fair likelihood_loaded prior_loaded us s i n t h
    induction n generalizing s i t with
    | zero =>
      rw [mcmc_run, Option.some_inj] at h
      subst h
      rfl
    | succ n ih =>
      obtain ⟨r, rest, hstep, hrest, rfl⟩ :=
        mcmc_run_succ_iff likelihood_fair prior_fair likelihood_loaded prior_loaded
          us s i n t h
      simpa using ih r.2.1 r.2.2 rest hrest

/-- Witness for C5: a three-iteration run records `[1, 0, 1]`, of length `3`,
and its first step records the state it moves to. -/
theorem trace_records_resulting_state_and_has_full_length_witness :
    ((1 : ℤ) = 1) ∧ (([1, 0, 1] : List ℤ).length = 3) :=
  ⟨trace_records_resulting_state_and_has_full_length.1 1 1 1 1 (fun _ => 0) 0 0
      (1, 1, 0) (by norm_num [mcmc_step, get_alphaE]),
    trace_records_resulting_state_and_has_full_length.2 1 1 1 1 (fun _ => 0) 0 0 3
      ([1, 0, 1], 1, 0) (by norm_num [mcmc_run, mcmc_step, get_alphaE])⟩

/-- C2: for every prior pair and every pair of likelihoods with both products
positive, the transition probabilities implied by the acceptance rule
(`min 1 alpha` with `alpha` from `get_alpha`) satisfy detailed balance with the
analytically computed posterior:
`pi(fair) * T(fair -> loaded) = pi(loaded) * T(loaded -> fair)`. -/
theorem detailed_balance (likelihood_fair prior_fair likelihood_loaded prior_loaded : ℚ)
    (hF : 0 < likelihood_fair * prior_fair) (hL : 0 < likelihood_loaded * prior_loaded) :
    posterior_fair_of likelihood_fair prior_fair likelihood_loaded prior_loaded *
        accept_prob 1 likelihood_fair prior_fair likelihood_loaded prior_loaded =
      posterior_loaded_of likelihood_fair prior_fair likelihood_loaded prior_loaded *
        accept_prob 0 likelihood_fair prior_fair likelihood_loaded prior_loaded := by
  have h1 : get_alpha 1 likelihood_fair prior_fair likelihood_loaded prior_loaded =
      likelihood_loaded * prior_loaded / (likelihood_fair * prior_fair) := by
    simp [get_alpha]
  have h0 : get_alpha 0 likelihood_fair prior_fair likelihood_loaded prior_loaded =
      likelihood_fair * prior_fair / (likelihood_loaded * prior_loaded) := by
    norm_num [get_alpha]
  have hsum : likelihood_fair * prior_fair + likelihood_loaded * prior_loaded ≠ 0 :=
    (add_pos hF hL).ne'
  unfold posterior_fair_of posterior_loaded_of accept_prob
  rw [h1, h0]
  rcases le_total (likelihood_fair * prior_fair) (likelihood_loaded * prior_loaded) with
      hle | hle
  · rw [min_eq_left ((one_le_div hF).mpr hle), min_eq_right ((div_le_one hL).mpr hle)]
    field_simp
    ring
  · rw [min_eq_right ((div_le_one hF).mpr hle), min_eq_left ((one_le_div hL).mpr hle)]
    field_simp
    ring

/-- Witness for C2 with likelihoods `1, 1` and priors `1/2, 1/2`. -/
theorem detailed_balance_witness :
    posterior_fair_of 1 (1 / 2) 1 (1 / 2) * accept_prob 1 1 (1 / 2) 1 (1 / 2) =
      posterior_loaded_of 1 (1 / 2) 1 (1 / 2) * accept_prob 0 1 (1 / 2) 1 (1 / 2) :=
  detailed_balance 1 (1 / 2) 1 (1 / 2) (by norm_num) (by norm_num)

/-- C6 counterexample: with both priors negative (`prior_fair = prior_loaded
= -1/2`, likelihoods `1`), the sampler raises no invalid-input error; it runs
all three requested iterations to completion and returns a full trace. The
code performs no input validation. -/
theorem negative_priors_accepted :
    mcmc_run 1 (-(1 / 2)) 1 (-(1 / 2)) (fun _ => 0) 0 0 3 = some ([1, 0, 1], 1, 0) := by
  norm_num [mcmc_run, mcmc_step, get_alphaE]

/-- C6 amended: the sampler validates nothing. Whenever both state products
`likelihood_fair * prior_fair` and `likelihood_loaded * prior_loaded` are
non-zero — even when priors or likelihoods are negative, and for every
iteration count including `0` — the run completes and returns a trace. The only
failure is a division-by-zero error from `get_alpha`, which occurs on the first
iteration whenever both likelihoods are zero (making both products zero), for
any requested iteration count of at least `1`. -/
theorem no_input_validation (likelihood_fair prior_fair likelihood_loaded prior_loaded : ℚ)
    (us : ℕ → ℚ) (s : ℤ) (i n : ℕ) :
    (likelihood_fair * prior_fair ≠ 0 → likelihood_loaded * prior_loaded ≠ 0 →
      (mcmc_run likelihood_fair prior_fair likelihood_loaded prior_loaded us s i n).isSome =
        true) ∧
    (likelihood_fair = 0 → likelihood_loaded = 0 → 1 ≤ n →
      mcmc_run likelihood_fair prior_fair likelihood_loaded prior_loaded us s i n = none) := by
  constructor
  · intro hF hL
    induction n generalizing s i with
    | zero => rfl
    | succ n ih =>
      have hstep : ∃ r,
          mcmc_step likelihood_fair prior_fair likelihood_loaded prior_loaded us s i =
            some r := by
        unfold mcmc_step get_alphaE
        by_cases hs0 : s = 0 <;> simp [hs0, hF, hL]
      obtain ⟨r, hr⟩ := hstep
      rw [mcmc_run, hr, Option.some_bind]
      simpa using ih r.2.1 r.2.2
  · intro hlF hlL hn
    subst hlF hlL
    obtain ⟨m, rfl⟩ : ∃ m, n = m + 1 := ⟨n - 1, (Nat.succ_pred_eq_of_pos hn).symm⟩
    have hstep : mcmc_step 0 prior_fair 0 prior_loaded us s i = none := by
      unfold mcmc_step get_alphaE
      by_cases hs0 : s = 0 <;> simp [hs0]
    rw [mcmc_run, hstep, Option.none_bind]

/-- Witness for C6 amended: a non-degenerate run completes, and a run with both
likelihoods zero fails with the division error. -/
theorem no_input_validation_witness :
    (mcmc_run 1 1 1 1 (fun _ => 0) 0 0 2).isSome = true ∧
      mcmc_run 0 1 0 1 (fun _ => 0) 0 0 2 = none :=
  ⟨(no_input_validation 1 1 1 1 (fun _ => 0) 0 0 2).1 (by norm_num) (by norm_num),
    (no_input_validation 0 1 0 1 (fun _ => 0) 0 0 2).2 rfl rfl (by norm_num)⟩

end MCMCDemo
